import Mathlib

/-!
Verification of the DREAMT sleep-analysis repository (model-training pipeline).

The development shallowly embeds `src/data/preprocessing.py` and
`src/features/extractor.py` over exact rational arithmetic:

* a numpy 1-D float array becomes `List ℚ`; an array that may contain NaN
  becomes `List (Option ℚ)` with `none` for NaN;
* every feature value produced by the extractor is of the form `c * √r`
  with `c r : ℚ` (square roots enter through `np.std`, rms, SDNN, RMSSD and
  `scipy.stats.skew`), so feature values are represented exactly by the
  inductive `FVal` below, with a denotation relation into `ℝ`;
* the two library components whose outputs are not rational functions of
  the input — the pointwise accelerometer magnitude `√(x²+y²+z²)` and
  `scipy.signal.find_peaks` — enter the embedding as explicit environment
  parameters; all theorems hold for every environment.
-/

namespace Dreamt

/-! ## Generic numeric helpers (exact models of numpy reductions) -/

/-- Lexicographic comparison of char lists by code point; this is the order
Python uses on `str` and numpy uses when sorting object arrays. -/
def lexLt : List Char → List Char → Bool
  | [], [] => false
  | [], _ :: _ => true
  | _ :: _, [] => false
  | a :: as, b :: bs =>
      if a.toNat < b.toNat then true
      else if b.toNat < a.toNat then false
      else lexLt as bs

/-- Python string `<`. -/
def strLt (a b : String) : Bool := lexLt a.data b.data

theorem lexLt_irrefl (u : List Char) : lexLt u u = false := by
  induction u with
  | nil => rfl
  | cons a as ih => simp [lexLt, ih]

theorem lexLt_asymm : ∀ {u v : List Char}, lexLt u v = true → lexLt v u = false := by
  intro u
  induction u with
  | nil =>
    intro v h
    cases v with
    | nil => rfl
    | cons b bs => rfl
  | cons a as ih =>
    intro v h
    cases v with
    | nil => simp [lexLt] at h
    | cons b bs =>
      simp only [lexLt] at h ⊢
      by_cases h1 : a.toNat < b.toNat
      · rw [if_neg (by omega), if_pos h1]
      · by_cases h2 : b.toNat < a.toNat
        · rw [if_neg h1, if_pos h2] at h
          exact absurd h (by decide)
        · rw [if_neg h1, if_neg h2] at h
          rw [if_neg h2, if_neg h1]
          exact ih h

theorem lexLt_trans : ∀ {u v w : List Char},
    lexLt u v = true → lexLt v w = true → lexLt u w = true := by
  intro u
  induction u with
  | nil =>
    intro v w h1 h2
    cases w with
    | nil =>
      cases v with
      | nil => exact h1
      | cons b bs => exact absurd h2 (by simp [lexLt])
    | cons c cs => rfl
  | cons a as ih =>
    intro v w h1 h2
    cases v with
    | nil => exact absurd h1 (by simp [lexLt])
    | cons b bs =>
      cases w with
      | nil => exact absurd h2 (by simp [lexLt])
      | cons c cs =>
        simp only [lexLt] at h1 h2 ⊢
        by_cases hab : a.toNat < b.toNat
        · by_cases hbc : b.toNat < c.toNat
          · rw [if_pos (by omega)]
          · by_cases hcb : c.toNat < b.toNat
            · rw [if_neg hbc, if_pos hcb] at h2
              exact absurd h2 (by decide)
            · rw [if_pos (by omega)]
        · by_cases hba : b.toNat < a.toNat
          · rw [if_neg hab, if_pos hba] at h1
            exact absurd h1 (by decide)
          · rw [if_neg hab, if_neg hba] at h1
            by_cases hbc : b.toNat < c.toNat
            · rw [if_pos (by omega)]
            · by_cases hcb : c.toNat < b.toNat
              · rw [if_neg hbc, if_pos hcb] at h2
                exact absurd h2 (by decide)
              · rw [if_neg hbc, if_neg hcb] at h2
                rw [if_neg (by omega), if_neg (by omega)]
                exact ih h1 h2

theorem lexLt_connex : ∀ {u v : List Char},
    lexLt u v = false → lexLt v u = true ∨ u = v := by
  intro u
  induction u with
  | nil =>
    intro v h
    cases v with
    | nil => right; rfl
    | cons b bs => exact absurd h (by simp [lexLt])
  | cons a as ih =>
    intro v h
    cases v with
    | nil => left; rfl
    | cons b bs =>
      simp only [lexLt] at h ⊢
      by_cases hab : a.toNat < b.toNat
      · rw [if_pos hab] at h
        exact absurd h (by decide)
      · by_cases hba : b.toNat < a.toNat
        · left
          rw [if_pos hba]
        · rw [if_neg hab, if_neg hba] at h
          have h3 : a.toNat = b.toNat := by omega
          have hEq : a = b := Char.ext (UInt32.ext h3)
          rcases ih h with h1 | h1
          · left
            rw [if_neg hba, if_neg hab]
            exact h1
          · right
            rw [hEq, h1]

theorem strLt_irrefl (a : String) : strLt a a = false := lexLt_irrefl a.data

theorem strLt_asymm {a b : String} (h : strLt a b = true) : strLt b a = false :=
  lexLt_asymm h

theorem strLt_trans {a b c : String} (h1 : strLt a b = true)
    (h2 : strLt b c = true) : strLt a c = true := lexLt_trans h1 h2

theorem strLt_connex {a b : String} (h : strLt a b = false) :
    strLt b a = true ∨ a = b := by
  rcases lexLt_connex h with h1 | h1
  · left; exact h1
  · right; exact String.ext h1

/-- `np.mean` over a 1-D array (population mean). -/
def meanQ (l : List ℚ) : ℚ := l.sum / l.length

/-- Central moment of order `k` with the biased (population) normaliser,
as used by `np.std` (k = 2) and `scipy.stats.skew`/`kurtosis` (k = 3, 4). -/
def centralMoment (l : List ℚ) (k : ℕ) : ℚ :=
  ((l.map (fun x => (x - meanQ l) ^ k)).sum) / l.length

/-- `np.mean(x**2)`, the radicand of the rms feature. -/
def meanSqQ (l : List ℚ) : ℚ := ((l.map (fun x => x ^ 2)).sum) / l.length

/-- `np.min` (0 on the empty array only as a total-function placeholder). -/
def minQ : List ℚ → ℚ
  | [] => 0
  | x :: xs => xs.foldl min x

/-- `np.max`. -/
def maxQ : List ℚ → ℚ
  | [] => 0
  | x :: xs => xs.foldl max x

/-- Ascending sort, as `np.partition`/`np.sort` produce for percentiles. -/
def sortQ (l : List ℚ) : List ℚ := l.insertionSort (fun a b => a ≤ b)

/-- `np.percentile(l, q)` with the default linear interpolation:
`h = (n-1)·q/100`, result `s[⌊h⌋] + (h-⌊h⌋)·(s[⌊h⌋+1] - s[⌊h⌋])` on the
sorted copy `s` (upper index clipped to `n-1`). -/
def percentileQ (l : List ℚ) (q : ℚ) : ℚ :=
  if l.length = 0 then 0
  else
    (sortQ l).getD (Int.toNat ⌊((l.length : ℚ) - 1) * q / 100⌋) 0
    + (((l.length : ℚ) - 1) * q / 100
        - ((Int.toNat ⌊((l.length : ℚ) - 1) * q / 100⌋ : ℕ) : ℚ))
      * ((sortQ l).getD
          (min (Int.toNat ⌊((l.length : ℚ) - 1) * q / 100⌋ + 1) (l.length - 1)) 0
        - (sortQ l).getD (Int.toNat ⌊((l.length : ℚ) - 1) * q / 100⌋) 0)

/-- `np.diff`: successive differences `l[i+1] - l[i]`. -/
def diffQ (l : List ℚ) : List ℚ := (l.zip l.tail).map (fun p => p.2 - p.1)

/-! ## Feature values -/

/-- Value of one extracted feature.  `num c r` denotes the real number
`c * √r` (all numeric features of the extractor have this shape over a
rational input); `str` holds a pandas label; `nan` marks numpy NaN
propagation through unfiltered arithmetic. -/
inductive FVal where
  | num (c r : ℚ) : FVal
  | str (s : String) : FVal
  | nan : FVal
deriving DecidableEq

/-- A plainly rational feature value. -/
def ratv (q : ℚ) : FVal := .num q 1

/-- A feature value that is the square root of a rational. -/
def sqrtv (q : ℚ) : FVal := .num 1 q

/-- Denotation of a feature value as a real number. -/
def FVal.denotes : FVal → ℝ → Prop
  | .num c r, x => x = (c : ℝ) * Real.sqrt (r : ℝ)
  | .str _, _ => False
  | .nan, _ => False

/-! ## `preprocessing.py` -/

/-- Failure modes of `resample_signal`. -/
inductive ResampleErr where
  | invalidMethod : ResampleErr
  | indexError : ResampleErr
deriving DecidableEq

/-- Result of `resample_signal`.  `copy` is the `source == target` early
return (`data.copy()`); `interpolated kind grid` stands for the library
interpolant of the given kind evaluated at the computed target time grid
(those sample values are real-valued library outputs; no property below
depends on them, only on the control flow that produces them). -/
inductive ResampleOut where
  | copy (vals : List ℚ) : ResampleOut
  | interpolated (kind : String) (grid : List ℚ) : ResampleOut
deriving DecidableEq

/-- The interpolation kinds `scipy.interpolate.interp1d` accepts as strings;
any other string makes its constructor raise. -/
def interp1dKinds : List String :=
  ["linear", "nearest", "nearest-up", "zero", "slinear", "quadratic",
   "cubic", "previous", "next"]

/-- Length of `np.arange(0, stop, step)` for a positive step. -/
def arangeCount (stop step : ℚ) : ℕ :=
  if 0 < step ∧ 0 < stop then (Int.toNat ⌈stop / step⌉) else 0

/-- The target time grid `np.arange(0, t_original[-1], 1/target_sr)` of
`resample_signal`, with `t_original[-1] = (n-1)/original_sr`. -/
def targetGrid (n : ℕ) (original_sr target_sr : ℚ) : List ℚ :=
  let tEnd := ((n : ℚ) - 1) / original_sr
  let step := 1 / target_sr
  (List.range (arangeCount tEnd step)).map (fun k => (k : ℚ) * step)

/-- `resample_signal(data, original_sr, target_sr, method)`.  When the rates
are equal it returns `data.copy()` before any validation; otherwise it
builds the time grids (indexing `t_original[-1]`, an IndexError on empty
input) and hands the kind string to `interp1d`, whose constructor rejects
unrecognised kinds. -/
def resample_signal (data : List ℚ) (original_sr target_sr : ℚ)
    (method : String) : Except ResampleErr ResampleOut :=
  if original_sr = target_sr then .ok (.copy data)
  else if data.isEmpty then .error .indexError
  else if method ∈ interp1dKinds then
    .ok (.interpolated method (targetGrid data.length original_sr target_sr))
  else .error .invalidMethod

/-- Failure mode of `normalize_signal`: the final `raise ValueError`. -/
inductive NormalizeErr where
  | unknownMethod : NormalizeErr
deriving DecidableEq

/-- `normalize_signal(data, method)` (1-D, `axis=None`).  The result is the
pair (numerators, divisor): each output sample is `numerator / divisor`
where the divisor is the `FVal`-denoted real (`np.std` is `√(m₂)`, so the
zscore divisor is represented at the radicand level; `np.where(d == 0, 1, d)`
replaces a zero statistic by 1). -/
def normalize_signal (data : List ℚ) (method : String) :
    Except NormalizeErr (List ℚ × FVal) :=
  if method = "zscore" then
    let μ := meanQ data
    let varq := centralMoment data 2
    .ok (data.map (fun x => x - μ), if varq = 0 then ratv 1 else sqrtv varq)
  else if method = "minmax" then
    let mn := minQ data
    let rangeq := maxQ data - mn
    .ok (data.map (fun x => x - mn), ratv (if rangeq = 0 then 1 else rangeq))
  else if method = "robust" then
    let med := percentileQ data 50
    let iqrq := percentileQ data 75 - percentileQ data 25
    .ok (data.map (fun x => x - med), ratv (if iqrq = 0 then 1 else iqrq))
  else .error .unknownMethod

/-- `compute_ibi_from_peaks(peak_indices, fs)`: successive index differences
converted to milliseconds. -/
def compute_ibi_from_peaks (peak_indices : List ℕ) (fs : ℚ) : List ℚ :=
  (peak_indices.zip peak_indices.tail).map
    (fun p => ((p.2 : ℚ) - (p.1 : ℚ)) / fs * 1000)

/-! ## Basic lemmas about the helpers -/

theorem centralMoment_two_nonneg (l : List ℚ) : 0 ≤ centralMoment l 2 := by
  unfold centralMoment
  apply div_nonneg
  · apply List.sum_nonneg
    intro x hx
    rcases List.mem_map.1 hx with ⟨y, _, rfl⟩
    positivity
  · positivity

theorem meanSqQ_nonneg (l : List ℚ) : 0 ≤ meanSqQ l := by
  unfold meanSqQ
  apply div_nonneg
  · apply List.sum_nonneg
    intro x hx
    rcases List.mem_map.1 hx with ⟨y, _, rfl⟩
    positivity
  · positivity

/-! ## Claim theorems: preprocessing -/

/-- Claim C5: when source and target rates coincide, `resample_signal`
returns the input values unchanged (a value-identical copy), for every
interpolation method string, because the early return precedes everything
else. -/
theorem resample_signal_identity (data : List ℚ) (r : ℚ) (method : String) :
    resample_signal data r r method = .ok (.copy data) := by
  simp [resample_signal]

/-- Claim C5 witness: a concrete identity resample with an arbitrary
method string. -/
theorem resample_signal_identity_witness :
    resample_signal [1, 2] 64 64 "cubic" = .ok (.copy [1, 2]) :=
  resample_signal_identity [1, 2] 64 "cubic"

/-- Claim C6 counterexample: with equal rates an unrecognised method is
never validated and the call succeeds, contradicting the claim that an
invalid method fails for all rate pairs; moreover with distinct rates the
kind `zero` (outside the documented `{linear, cubic, nearest}`) is accepted
by `interp1d` and also succeeds. -/
theorem resample_signal_method_not_always_validated :
    resample_signal [1, 2] 64 64 "not-a-method" = .ok (.copy [1, 2]) ∧
    resample_signal [1, 2] 1 2 "zero" =
      .ok (.interpolated "zero" [0, 1/2]) := by
  constructor
  · simp [resample_signal]
  · have hgrid : targetGrid 2 1 2 = [0, 1/2] := by
      have hc : arangeCount ((((2 : ℕ) : ℚ) - 1) / 1) (1 / 2) = 2 := by
        have h2 : ⌈((((2 : ℕ) : ℚ) - 1) / 1) / (1 / 2)⌉ = 2 := by
          rw [Int.ceil_eq_iff]
          norm_num
        simp only [arangeCount]
        rw [if_pos (by norm_num), h2]
        rfl
      simp only [targetGrid]
      rw [hc]
      norm_num [List.range_succ]
    simp only [resample_signal]
    rw [if_neg (by norm_num), if_neg (by simp), if_pos (by decide)]
    rw [show ([1, 2] : List ℚ).length = 2 from rfl, hgrid]

/-- Claim C6 (amended): with distinct rates and nonempty data an
interpolation method outside the kinds accepted by `interp1d` is rejected
with the invalid-method error, and `normalize_signal` rejects any method
outside `{zscore, minmax, robust}`; with equal rates `resample_signal`
returns before validating the method. -/
theorem unknown_method_surfaced :
    (∀ (data : List ℚ) (osr tsr : ℚ) (method : String),
      osr ≠ tsr → data ≠ [] → method ∉ interp1dKinds →
      resample_signal data osr tsr method = .error .invalidMethod) ∧
    (∀ (data : List ℚ) (method : String),
      method ∉ (["zscore", "minmax", "robust"] : List String) →
      normalize_signal data method = .error .unknownMethod) := by
  constructor
  · intro data osr tsr method h1 h2 h3
    simp [resample_signal, h1, h2, h3]
  · intro data method h
    have h1 : method ≠ "zscore" := by intro he; exact h (by simp [he])
    have h2 : method ≠ "minmax" := by intro he; exact h (by simp [he])
    have h3 : method ≠ "robust" := by intro he; exact h (by simp [he])
    simp [normalize_signal, h1, h2, h3]

/-- Claim C6 witness: a concrete invalid method is rejected by both
functions. -/
theorem unknown_method_surfaced_witness :
    resample_signal [1] 1 2 "bogus" = .error .invalidMethod ∧
    normalize_signal [1] "bogus" = .error .unknownMethod :=
  ⟨unknown_method_surfaced.1 [1] 1 2 "bogus" (by norm_num) (by simp) (by decide),
   unknown_method_surfaced.2 [1] "bogus" (by decide)⟩

/-- Claim C7: `normalize_signal` never divides by zero — the divisor it
uses always denotes a nonzero real, and whenever the governing statistic
(variance, range, or IQR) is zero the divisor is the literal 1 and the
output is exactly the centered data. -/
theorem normalize_signal_no_div_zero (data : List ℚ) (method : String)
    (out : List ℚ × FVal) (h : normalize_signal data method = .ok out) :
    (∀ r : ℝ, out.2.denotes r → r ≠ 0) ∧
    (method = "zscore" → centralMoment data 2 = 0 →
      out = (data.map (fun x => x - meanQ data), ratv 1)) ∧
    (method = "minmax" → maxQ data - minQ data = 0 →
      out = (data.map (fun x => x - minQ data), ratv 1)) ∧
    (method = "robust" → percentileQ data 75 - percentileQ data 25 = 0 →
      out = (data.map (fun x => x - percentileQ data 50), ratv 1)) := by
  by_cases hz : method = "zscore"
  · subst hz
    simp only [normalize_signal, if_pos rfl] at h
    have hout := Except.ok.inj h
    refine ⟨?_, ?_, ?_, ?_⟩
    · intro r hr
      rw [← hout] at hr
      by_cases hv : centralMoment data 2 = 0
      · simp only [hv, if_pos rfl, ratv, FVal.denotes] at hr
        rw [hr]; norm_num
      · simp only [hv, if_neg hv, sqrtv, FVal.denotes] at hr
        have hpos : (0 : ℝ) < (centralMoment data 2 : ℝ) := by
          have := centralMoment_two_nonneg data
          have : (0:ℚ) < centralMoment data 2 := lt_of_le_of_ne this (Ne.symm hv)
          exact_mod_cast this
        rw [hr]
        simp only [Rat.cast_one, one_mul]
        exact ne_of_gt (Real.sqrt_pos.2 hpos)
    · intro _ hv
      rw [← hout, hv]
      norm_num
    · intro hm; exact absurd hm (by decide)
    · intro hm; exact absurd hm (by decide)
  · by_cases hmm : method = "minmax"
    · subst hmm
      simp only [normalize_signal, if_neg (by decide : ("minmax" : String) ≠ "zscore"), if_pos rfl] at h
      have hout := Except.ok.inj h
      refine ⟨?_, ?_, ?_, ?_⟩
      · intro r hr
        rw [← hout] at hr
        simp only [ratv, FVal.denotes] at hr
        rw [hr]
        by_cases hrange : maxQ data - minQ data = 0
        · simp [hrange]
        · simp only [if_neg hrange, Rat.cast_one, Real.sqrt_one, mul_one]
          exact_mod_cast hrange
      · intro hm; exact absurd hm (by decide)
      · intro _ hv
        rw [← hout, hv]
        norm_num
      · intro hm; exact absurd hm (by decide)
    · by_cases hrb : method = "robust"
      · subst hrb
        simp only [normalize_signal, if_neg (by decide : ("robust" : String) ≠ "zscore"),
          if_neg (by decide : ("robust" : String) ≠ "minmax"), if_pos rfl] at h
        have hout := Except.ok.inj h
        refine ⟨?_, ?_, ?_, ?_⟩
        · intro r hr
          rw [← hout] at hr
          simp only [ratv, FVal.denotes] at hr
          rw [hr]
          by_cases hiqr : percentileQ data 75 - percentileQ data 25 = 0
          · simp [hiqr]
          · simp only [if_neg hiqr, Rat.cast_one, Real.sqrt_one, mul_one]
            exact_mod_cast hiqr
        · intro hm; exact absurd hm (by decide)
        · intro hm; exact absurd hm (by decide)
        · intro _ hv
          rw [← hout, hv]
          norm_num
      · simp only [normalize_signal, if_neg hz, if_neg hmm, if_neg hrb] at h
        cases h

/-- Claim C7 witness: on the constant signal `[1, 1]` (zero variance) the
zscore divisor is 1 and the result is the centered data. -/
theorem normalize_signal_no_div_zero_witness :
    normalize_signal [1, 1] "zscore" = .ok ([0, 0], ratv 1) ∧ (1 : ℝ) ≠ 0 := by
  have hvar : centralMoment [1, 1] 2 = 0 := by
    norm_num [centralMoment, meanQ]
  have h : normalize_signal [1, 1] "zscore" = .ok ([0, 0], ratv 1) := by
    simp only [normalize_signal, if_pos rfl, hvar, if_pos rfl]
    norm_num [meanQ]
  refine ⟨h, ?_⟩
  have := (normalize_signal_no_div_zero [1, 1] "zscore" ([0, 0], ratv 1) h).1 1
  apply this
  simp [ratv, FVal.denotes]

/-! ## `extractor.py`: statistical features -/

/-- `np.signbit` on the exact value of `x` (float subtraction of equal
values yields +0.0, whose sign bit is clear, so a value equal to the mean
maps to `false`). -/
def signbitQ (q : ℚ) : Bool := decide (q < 0)

/-- The zero-crossings count of `_compute_statistical_features`:
`np.sum(np.diff(np.signbit(x - mean(x))))`.  `np.diff` on a boolean array
uses `not_equal`, so this counts adjacent pairs with differing sign bit. -/
def zeroCrossings (s : List ℚ) : ℕ :=
  let μ := meanQ s
  (s.zip s.tail).countP (fun p => signbitQ (p.1 - μ) != signbitQ (p.2 - μ))

/-- Feature names emitted by `_compute_statistical_features`, in insertion
order. -/
def statKeys (pfx : String) : List String :=
  [pfx ++ "_mean", pfx ++ "_std", pfx ++ "_min", pfx ++ "_max",
   pfx ++ "_range", pfx ++ "_median", pfx ++ "_iqr", pfx ++ "_skew",
   pfx ++ "_kurtosis", pfx ++ "_energy", pfx ++ "_rms",
   pfx ++ "_zero_crossings"]

/-- `_compute_statistical_features(signal_data, prefix)`: NaN entries are
dropped first; an all-NaN slice yields no features at all.  `np.std` is
`√m₂`; `scipy.stats.skew = m₃/m₂^{3/2} = (m₃/m₂²)·√m₂` and
`kurtosis = m₄/m₂² - 3` (population moments, Fisher), both defaulting to 0
when `np.std == 0`, i.e. when `m₂ = 0`. -/
def compute_statistical_features (sig : List (Option ℚ)) (pfx : String) :
    List (String × FVal) :=
  let s := sig.filterMap id
  if s.isEmpty then []
  else
    let m2 := centralMoment s 2
    [(pfx ++ "_mean", ratv (meanQ s)),
     (pfx ++ "_std", sqrtv m2),
     (pfx ++ "_min", ratv (minQ s)),
     (pfx ++ "_max", ratv (maxQ s)),
     (pfx ++ "_range", ratv (maxQ s - minQ s)),
     (pfx ++ "_median", ratv (percentileQ s 50)),
     (pfx ++ "_iqr", ratv (percentileQ s 75 - percentileQ s 25)),
     (pfx ++ "_skew",
       if 0 < m2 then FVal.num (centralMoment s 3 / m2 ^ 2) m2 else ratv 0),
     (pfx ++ "_kurtosis",
       if 0 < m2 then ratv (centralMoment s 4 / m2 ^ 2 - 3) else ratv 0),
     (pfx ++ "_energy", ratv ((s.map (fun x => x ^ 2)).sum)),
     (pfx ++ "_rms", sqrtv (meanSqQ s)),
     (pfx ++ "_zero_crossings", ratv (zeroCrossings s))]

/-! ## `extractor.py`: HRV, HR, PPG, IMU features -/

/-- The physiological-band filter on one inter-beat interval:
`(ibi > 300) & (ibi < 2000)`. -/
def validIbi (x : ℚ) : Bool := decide (300 < x) && decide (x < 2000)

/-- HRV feature names, in insertion order. -/
def hrvKeys : List String :=
  ["hrv_mean_ibi", "hrv_sdnn", "hrv_rmssd", "hrv_pnn50", "hrv_pnn20"]

/-- `_compute_hrv_features(ibi)`: empty unless at least two intervals
remain both before and after the outlier filter; SDNN is `np.std` (√m₂)
and RMSSD is `√(mean(diff²))`; pNN50/pNN20 are percentages of successive
differences strictly above 50 ms / 20 ms. -/
def compute_hrv_features (ibi : List ℚ) : List (String × FVal) :=
  if ibi.length < 2 then []
  else
    let f := ibi.filter validIbi
    if f.length < 2 then []
    else
      let d := diffQ f
      [("hrv_mean_ibi", ratv (meanQ f)),
       ("hrv_sdnn", sqrtv (centralMoment f 2)),
       ("hrv_rmssd", sqrtv (meanSqQ d)),
       ("hrv_pnn50", ratv (((d.countP (fun x => decide (50 < |x|))) : ℚ) / d.length * 100)),
       ("hrv_pnn20", ratv (((d.countP (fun x => decide (20 < |x|))) : ℚ) / d.length * 100))]

/-- HR feature names, in insertion order. -/
def hrKeys : List String := ["hr_mean", "hr_std", "hr_min", "hr_max", "hr_range"]

/-- The five HR-column features over the NaN-filtered HR samples. -/
def hrFeatureList (h : List ℚ) : List (String × FVal) :=
  [("hr_mean", ratv (meanQ h)),
   ("hr_std", sqrtv (centralMoment h 2)),
   ("hr_min", ratv (minQ h)),
   ("hr_max", ratv (maxQ h)),
   ("hr_range", ratv (maxQ h - minQ h))]

/-- `_extract_ppg_features(epoch_df)`.  `detected` is the outcome of the
`detect_ppg_peaks` call inside the `try` block: `none` models any raised
exception (then the block contributes nothing), `some peaks` the peak
indices returned by `scipy.signal.find_peaks`; HRV features are appended
only when more than two peaks were found. -/
def extract_ppg_features (bvp hr : List (Option ℚ)) (hrPresent : Bool)
    (fs : ℚ) (detected : Option (List ℕ)) : List (String × FVal) :=
  compute_statistical_features bvp "ppg"
  ++ (if hrPresent then
        (let h := hr.filterMap id
         if h.isEmpty then [] else hrFeatureList h)
      else [])
  ++ (match detected with
      | some peaks =>
          if 2 < peaks.length then
            compute_hrv_features (compute_ibi_from_peaks peaks fs)
          else []
      | none => [])

/-- `np.diff` with numpy NaN propagation: a difference touching a NaN is
NaN. -/
def optDiff (l : List (Option ℚ)) : List (Option ℚ) :=
  (l.zip l.tail).map (fun p =>
    match p.1, p.2 with
    | some a, some b => some (b - a)
    | _, _ => none)

/-- `np.sum` over a possibly-NaN array: NaN if any entry is NaN
(the empty sum is 0.0). -/
def nanSum (l : List (Option ℚ)) : FVal :=
  if l.all Option.isSome then ratv ((l.filterMap id).sum) else .nan

/-- `np.std` over the raw (unfiltered) array: NaN on an empty array or on
any array containing NaN. -/
def nanStd (l : List (Option ℚ)) : FVal :=
  if l.isEmpty then .nan
  else if l.all Option.isSome then sqrtv (centralMoment (l.filterMap id) 2)
  else .nan

/-- `_extract_imu_features(epoch_df)`.  The per-axis loop guards on column
presence; the magnitude block runs when all three axes are present.  `mag`
is the pointwise magnitude `np.sqrt(x² + y² + z²)` — irrational in general,
so it is an explicit parameter of the embedding (NaN exactly where an axis
is NaN); `imu_activity_count` and `imu_movement_intensity` are computed on
the raw magnitude without NaN filtering. -/
def extract_imu_features (xP yP zP : Bool) (x y z mag : List (Option ℚ)) :
    List (String × FVal) :=
  (if xP then compute_statistical_features x "imu_x" else [])
  ++ (if yP then compute_statistical_features y "imu_y" else [])
  ++ (if zP then compute_statistical_features z "imu_z" else [])
  ++ (if xP && yP && zP then
        compute_statistical_features mag "imu_mag"
        ++ [("imu_activity_count", nanSum ((optDiff mag).map (Option.map abs))),
            ("imu_movement_intensity", nanStd mag)]
      else [])

/-! ## `extractor.py`: epoching, labels, the full pipeline -/

/-- Candidates of the pandas mode: the row values attaining the maximal
count, in row order. -/
def modeCandidates (l : List String) : List String :=
  l.filter (fun a => l.all (fun b => l.count b ≤ l.count a))

/-- The smaller of two strings in Python/numpy sort order. -/
def strMin (a b : String) : String := if strLt b a then b else a

/-- `epoch_df['Sleep_Stage'].mode().iloc[0]`: pandas `Series.mode` returns
the most frequent values sorted ascending (numpy sort on the object
array), and `.iloc[0]` takes the first — hence the smallest label among
those tied for the maximal count. -/
def pdModeFirst (l : List String) : String :=
  match modeCandidates l with
  | [] => ""
  | x :: xs => xs.foldl strMin x

/-- Modelled from the spec: "ties broken by first-occurrence order" — the
label whose first row appears earliest among those attaining the maximal
count.  This is the specification-side tie-break, to be compared with the
pandas behaviour `pdModeFirst`. -/
def firstOccurrenceMode (l : List String) : String := (modeCandidates l).headD ""

/-- Truncation of a nonnegative Python float to `int`, as in
`int(epoch_duration * fs)`. -/
def pyIntFloor (q : ℚ) : ℤ := ⌊q⌋

/-- `samples_per_epoch = int(epoch_duration * fs)`. -/
def samplesPerEpoch (epoch_duration fs : ℚ) : ℤ := pyIntFloor (epoch_duration * fs)

/-- `step_size = int(samples_per_epoch * (1 - overlap))`. -/
def stepSize (samples_per_epoch : ℤ) (overlap : ℚ) : ℤ :=
  pyIntFloor ((samples_per_epoch : ℚ) * (1 - overlap))

/-- The epoch start indices `range(0, n_samples - samples_per_epoch + 1,
step_size)` for a positive step: `⌈(n - E + 1)/S⌉` starts (ℕ subtraction
makes the count 0 exactly where the Python stop is ≤ 0), the i-th at
`i * S`. -/
def pyStarts (n E S : ℕ) : List ℕ :=
  (List.range ((n + 1 - E + (S - 1)) / S)).map (fun i => i * S)

/-- `df.iloc[start:start+E]` on one column. -/
def sliceE {α : Type} (c : List α) (start E : ℕ) : List α :=
  (c.drop start).take E

/-- A participant table: each physiological column is present or not
(`Option`), and a present column is a list of possibly-NaN samples of
length `nRows`. -/
structure Table where
  accX : Option (List (Option ℚ))
  accY : Option (List (Option ℚ))
  accZ : Option (List (Option ℚ))
  bvp : Option (List (Option ℚ))
  hr : Option (List (Option ℚ))
  sleepStage : Option (List String)
  nRows : ℕ

/-- The data of a possibly-absent column. -/
def colData (c : Option (List (Option ℚ))) : List (Option ℚ) := c.getD []

/-- `extract_all_features(df, include_imu, include_ppg)` with epoch length
`E` and stride `S`.  The two non-rational library computations are
environment parameters: `magAt start` is the accelerometer-magnitude array
of the epoch at `start`, and `peaksAt start` the outcome of PPG peak
detection there (`none` = the `try` block raised).  Each epoch is the
concatenation, in source order, of IMU features, PPG features and the
majority-vote sleep-stage label. -/
def extract_all_features (tbl : Table) (include_imu include_ppg : Bool)
    (E S : ℕ) (fs : ℚ) (magAt : ℕ → List (Option ℚ))
    (peaksAt : ℕ → Option (List ℕ)) : List (List (String × FVal)) :=
  (pyStarts tbl.nRows E S).map (fun start =>
    (if include_imu && tbl.accX.isSome && tbl.accY.isSome && tbl.accZ.isSome then
       extract_imu_features true true true
         (sliceE (colData tbl.accX) start E) (sliceE (colData tbl.accY) start E)
         (sliceE (colData tbl.accZ) start E) (magAt start)
     else [])
    ++ (if include_ppg && tbl.bvp.isSome then
          extract_ppg_features (sliceE (colData tbl.bvp) start E)
            (sliceE (colData tbl.hr) start E) tbl.hr.isSome fs (peaksAt start)
        else [])
    ++ (match tbl.sleepStage with
        | some ls => [("Sleep_Stage", FVal.str (pdModeFirst (sliceE ls start E)))]
        | none => []))

/-! ## `extract_frequency_features` (names) -/

/-- The suffixes of the spectral feature names written by
`extract_frequency_features`, in insertion order. -/
def spectralSuffixes : List String :=
  ["_total_power", "_dominant_freq", "_vlf_power", "_lf_power",
   "_hf_power", "_lf_hf_ratio"]

/-- The feature names produced by `extract_frequency_features(signal,
prefix)`.  Its values are FFT power sums — real-valued library outputs that
no property below depends on; the claims about this method concern only
which names it can introduce. -/
def extract_frequency_features_keys (pfx : String) : List String :=
  spectralSuffixes.map (fun s => pfx ++ s)

/-! ## String and lookup machinery -/

theorem string_append_inj (p : String) {a b : String} (h : p ++ a = p ++ b) :
    a = b := by
  have hd := congrArg String.data h
  simp only [String.data_append] at hd
  have hd2 := List.append_cancel_left hd
  exact String.ext hd2

theorem string_append_ne (p : String) {a b : String} (h : a ≠ b) :
    p ++ a ≠ p ++ b := fun he => h (string_append_inj p he)

theorem append_beq (p a b : String) : ((p ++ a) == (p ++ b)) = (a == b) := by
  by_cases hab : a = b
  · subst hab
    simp
  · have h1 : (a == b) = false := beq_eq_false_iff_ne.mpr hab
    have h2 : ((p ++ a) == (p ++ b)) = false :=
      beq_eq_false_iff_ne.mpr (string_append_ne p hab)
    rw [h1, h2]

theorem lookup_append_right {β : Type} (k : String) (l₁ l₂ : List (String × β))
    (h : ∀ q ∈ l₁, q.1 ≠ k) : (l₁ ++ l₂).lookup k = l₂.lookup k := by
  induction l₁ with
  | nil => simp
  | cons a t ih =>
    have ha : (k == a.1) = false :=
      beq_eq_false_iff_ne.mpr (fun he => (h a (List.mem_cons_self a t)) he.symm)
    cases a with
    | mk a1 a2 =>
      simp only [List.cons_append, List.lookup, ha]
      exact ih (fun q hq => h q (List.mem_cons_of_mem _ hq))

/-! ## Constant-signal lemmas -/

theorem filterMap_id_replicate_some (n : ℕ) (c : ℚ) :
    (List.replicate n (some c)).filterMap id = List.replicate n c := by
  induction n with
  | zero => rfl
  | succ k ih => simp [List.replicate, ih]

theorem meanQ_replicate (n : ℕ) (c : ℚ) (h : 0 < n) :
    meanQ (List.replicate n c) = c := by
  unfold meanQ
  rw [List.sum_replicate, List.length_replicate, nsmul_eq_mul]
  rw [mul_comm, mul_div_assoc, div_self (show (n:ℚ) ≠ 0 by exact_mod_cast h.ne'), mul_one]

theorem centralMoment_replicate (n : ℕ) (c : ℚ) (k : ℕ) (hn : 0 < n)
    (hk : k ≠ 0) : centralMoment (List.replicate n c) k = 0 := by
  unfold centralMoment
  rw [meanQ_replicate n c hn, List.map_replicate]
  simp [zero_pow hk]

theorem meanSqQ_replicate (n : ℕ) (c : ℚ) (h : 0 < n) :
    meanSqQ (List.replicate n c) = c ^ 2 := by
  unfold meanSqQ
  rw [List.map_replicate, List.sum_replicate, List.length_replicate, nsmul_eq_mul]
  rw [mul_comm, mul_div_assoc, div_self (show (n:ℚ) ≠ 0 by exact_mod_cast h.ne'), mul_one]

theorem foldl_min_replicate (m : ℕ) (c : ℚ) :
    List.foldl min c (List.replicate m c) = c := by
  induction m with
  | zero => rfl
  | succ k ih => simp [List.replicate, ih]

theorem foldl_max_replicate (m : ℕ) (c : ℚ) :
    List.foldl max c (List.replicate m c) = c := by
  induction m with
  | zero => rfl
  | succ k ih => simp [List.replicate, ih]

theorem minQ_replicate (n : ℕ) (c : ℚ) (h : 0 < n) :
    minQ (List.replicate n c) = c := by
  cases n with
  | zero => cases h
  | succ m => simp [List.replicate, minQ, foldl_min_replicate]

theorem maxQ_replicate (n : ℕ) (c : ℚ) (h : 0 < n) :
    maxQ (List.replicate n c) = c := by
  cases n with
  | zero => cases h
  | succ m => simp [List.replicate, maxQ, foldl_max_replicate]

theorem sortQ_replicate (n : ℕ) (c : ℚ) :
    sortQ (List.replicate n c) = List.replicate n c := by
  have hp := List.perm_insertionSort (fun a b : ℚ => a ≤ b) (List.replicate n c)
  refine List.eq_replicate_iff.mpr ⟨?_, ?_⟩
  · rw [show sortQ (List.replicate n c) = List.insertionSort (fun a b : ℚ => a ≤ b) (List.replicate n c) from rfl]
    rw [hp.length_eq, List.length_replicate]
  · intro b hb
    exact List.eq_of_mem_replicate (hp.mem_iff.1 hb)

theorem getD_replicate (n : ℕ) (c : ℚ) (i : ℕ) (h : i < n) :
    (List.replicate n c).getD i 0 = c := by
  induction n generalizing i with
  | zero => cases h
  | succ m ih =>
    cases i with
    | zero => rfl
    | succ j => exact ih j (Nat.lt_of_succ_lt_succ h)

theorem percentileQ_replicate (n : ℕ) (c : ℚ) (q : ℚ) (hn : 0 < n)
    (hq0 : 0 ≤ q) (hq1 : q ≤ 100) : percentileQ (List.replicate n c) q = c := by
  unfold percentileQ
  rw [List.length_replicate]
  rw [if_neg hn.ne']
  rw [sortQ_replicate]
  have hh0 : 0 ≤ ((n : ℚ) - 1) * q / 100 := by
    apply div_nonneg _ (by norm_num)
    apply mul_nonneg _ hq0
    have : (1 : ℚ) ≤ (n : ℚ) := by exact_mod_cast hn
    linarith
  have hh1 : ((n : ℚ) - 1) * q / 100 ≤ (n : ℚ) - 1 := by
    rw [div_le_iff₀ (by norm_num : (0:ℚ) < 100)]
    apply mul_le_mul_of_nonneg_left hq1
    have : (1 : ℚ) ≤ (n : ℚ) := by exact_mod_cast hn
    linarith
  have hfloor : (⌊((n : ℚ) - 1) * q / 100⌋).toNat < n := by
    have h1 : ⌊((n : ℚ) - 1) * q / 100⌋ ≤ ⌊(n : ℚ) - 1⌋ := Int.floor_le_floor hh1
    have h2 : ⌊(n : ℚ) - 1⌋ = (n : ℤ) - 1 := by
      rw [show ((n : ℚ) - 1) = (((n : ℤ) - 1 : ℤ) : ℚ) by push_cast; ring]
      exact Int.floor_intCast _
    omega
  have hmin : min ((⌊((n : ℚ) - 1) * q / 100⌋).toNat + 1) (n - 1) < n := by omega
  rw [getD_replicate n c _ hfloor, getD_replicate n c _ hmin]
  ring

theorem zip_replicate_succ {α : Type} (m : ℕ) (a : α) :
    (List.replicate (m + 1) a).zip (List.replicate m a) = List.replicate m (a, a) := by
  induction m with
  | zero => rfl
  | succ k ih => simpa [List.replicate] using ih

theorem zip_tail_replicate {α : Type} (n : ℕ) (a : α) :
    (List.replicate n a).zip (List.replicate n a).tail = List.replicate (n - 1) (a, a) := by
  cases n with
  | zero => rfl
  | succ m =>
    have : (List.replicate (m + 1) a).tail = List.replicate m a := by
      simp [List.replicate]
    rw [this, zip_replicate_succ]
    rfl

theorem diffQ_replicate (n : ℕ) (c : ℚ) :
    diffQ (List.replicate n c) = List.replicate (n - 1) 0 := by
  unfold diffQ
  rw [zip_tail_replicate]
  simp [List.map_replicate]

theorem optDiff_replicate (n : ℕ) (c : ℚ) :
    optDiff (List.replicate n (some c)) = List.replicate (n - 1) (some 0) := by
  unfold optDiff
  rw [zip_tail_replicate]
  simp [List.map_replicate]

theorem zeroCrossings_replicate (n : ℕ) (c : ℚ) :
    zeroCrossings (List.replicate n c) = 0 := by
  unfold zeroCrossings
  rw [zip_tail_replicate]
  rw [List.countP_eq_zero]
  intro a ha
  have := List.eq_of_mem_replicate ha
  subst this
  simp

theorem sum_replicate_zero (m : ℕ) : (List.replicate m (0 : ℚ)).sum = 0 := by
  rw [List.sum_replicate]
  simp

/-- Explicit value of `_compute_statistical_features` on a constant
(non-NaN) signal. -/
theorem statFeatures_replicate (n : ℕ) (c : ℚ) (pfx : String) (h : 0 < n) :
    compute_statistical_features (List.replicate n (some c)) pfx =
      [(pfx ++ "_mean", ratv c), (pfx ++ "_std", sqrtv 0),
       (pfx ++ "_min", ratv c), (pfx ++ "_max", ratv c),
       (pfx ++ "_range", ratv 0), (pfx ++ "_median", ratv c),
       (pfx ++ "_iqr", ratv 0), (pfx ++ "_skew", ratv 0),
       (pfx ++ "_kurtosis", ratv 0),
       (pfx ++ "_energy", ratv ((n : ℚ) * c ^ 2)),
       (pfx ++ "_rms", sqrtv (c ^ 2)),
       (pfx ++ "_zero_crossings", ratv 0)] := by
  simp only [compute_statistical_features, filterMap_id_replicate_some]
  rw [if_neg (by simp [List.isEmpty_iff, h.ne'])]
  rw [centralMoment_replicate n c 2 h (by norm_num)]
  rw [meanQ_replicate n c h, minQ_replicate n c h, maxQ_replicate n c h]
  rw [percentileQ_replicate n c 50 h (by norm_num) (by norm_num)]
  rw [percentileQ_replicate n c 75 h (by norm_num) (by norm_num)]
  rw [percentileQ_replicate n c 25 h (by norm_num) (by norm_num)]
  rw [meanSqQ_replicate n c h, zeroCrossings_replicate]
  rw [List.map_replicate, List.sum_replicate]
  norm_num [nsmul_eq_mul]

/-! ## Key characterizations -/

/-- A channel slice contributes features in the current epoch exactly when
it is not all-NaN. -/
def chanNE (sig : List (Option ℚ)) : Bool := !(sig.filterMap id).isEmpty

/-- Whether the `try` block of `_extract_ppg_features` emits HRV features:
peak detection succeeded with more than two peaks and both interval-count
guards of `_compute_hrv_features` pass. -/
def hrvOk (detected : Option (List ℕ)) (fs : ℚ) : Bool :=
  match detected with
  | some peaks =>
      decide (2 < peaks.length)
      && !(decide ((compute_ibi_from_peaks peaks fs).length < 2))
      && !(decide (((compute_ibi_from_peaks peaks fs).filter validIbi).length < 2))
  | none => false

theorem statFeatures_keys (sig : List (Option ℚ)) (pfx : String) :
    (compute_statistical_features sig pfx).map Prod.fst =
      if chanNE sig then statKeys pfx else [] := by
  cases hs : (sig.filterMap id).isEmpty
  · simp [compute_statistical_features, chanNE, hs, statKeys]
  · simp [compute_statistical_features, chanNE, hs]

theorem hrvFeatures_keys (ibi : List ℚ) :
    (compute_hrv_features ibi).map Prod.fst =
      if ¬ ibi.length < 2 ∧ ¬ (ibi.filter validIbi).length < 2 then hrvKeys
      else [] := by
  by_cases h1 : ibi.length < 2
  · simp [compute_hrv_features, h1]
  · by_cases h2 : (ibi.filter validIbi).length < 2
    · simp [compute_hrv_features, h1, h2]
    · simp [compute_hrv_features, hrvKeys, h1, h2]

theorem ppg_keys (bvp hr : List (Option ℚ)) (hrPresent : Bool) (fs : ℚ)
    (detected : Option (List ℕ)) :
    (extract_ppg_features bvp hr hrPresent fs detected).map Prod.fst =
      (if chanNE bvp then statKeys "ppg" else [])
      ++ (if hrPresent && chanNE hr then hrKeys else [])
      ++ (if hrvOk detected fs then hrvKeys else []) := by
  unfold extract_ppg_features
  rw [List.map_append, List.map_append, statFeatures_keys]
  congr 1
  congr 1
  · cases hrPresent with
    | false => simp
    | true =>
      cases hhr : (hr.filterMap id).isEmpty
      · simp [chanNE, hhr, hrFeatureList, hrKeys]
      · simp [chanNE, hhr]
  · cases detected with
    | none => simp [hrvOk]
    | some peaks =>
      by_cases hp : 2 < peaks.length
      · by_cases h1 : (compute_ibi_from_peaks peaks fs).length < 2
        · simp [hrvOk, hrvFeatures_keys, hp, h1]
        · by_cases h2 : ((compute_ibi_from_peaks peaks fs).filter validIbi).length < 2
          · simp [hrvOk, hrvFeatures_keys, hp, h1, h2]
          · simp [hrvOk, hrvFeatures_keys, hp, h1, h2]
      · simp [hrvOk, hp]

theorem imu_keys (x y z mag : List (Option ℚ)) :
    (extract_imu_features true true true x y z mag).map Prod.fst =
      (if chanNE x then statKeys "imu_x" else [])
      ++ (if chanNE y then statKeys "imu_y" else [])
      ++ (if chanNE z then statKeys "imu_z" else [])
      ++ ((if chanNE mag then statKeys "imu_mag" else [])
          ++ ["imu_activity_count", "imu_movement_intensity"]) := by
  simp [extract_imu_features, List.map_append, statFeatures_keys]

theorem statFeatures_fst_mem (sig : List (Option ℚ)) (pfx : String)
    {q : String × FVal} (hq : q ∈ compute_statistical_features sig pfx) :
    q.1 ∈ statKeys pfx := by
  have h1 : q.1 ∈ (compute_statistical_features sig pfx).map Prod.fst :=
    List.mem_map_of_mem _ hq
  rw [statFeatures_keys] at h1
  cases hc : chanNE sig
  · rw [hc] at h1
    cases h1
  · rwa [hc, if_pos rfl] at h1

theorem lookup_imu_tail (x y z : List (Option ℚ)) (tail : List (String × FVal))
    (k : String) (hk1 : k ∉ statKeys "imu_x") (hk2 : k ∉ statKeys "imu_y")
    (hk3 : k ∉ statKeys "imu_z") :
    (compute_statistical_features x "imu_x" ++ compute_statistical_features y "imu_y"
      ++ compute_statistical_features z "imu_z" ++ tail).lookup k = tail.lookup k := by
  apply lookup_append_right
  intro q hq he
  rcases List.mem_append.1 hq with h12 | h3
  · rcases List.mem_append.1 h12 with h1 | h2
    · exact hk1 (he ▸ statFeatures_fst_mem _ _ h1)
    · exact hk2 (he ▸ statFeatures_fst_mem _ _ h2)
  · exact hk3 (he ▸ statFeatures_fst_mem _ _ h3)

theorem filter_replicate_of_pos (p : ℚ → Bool) (m : ℕ) (a : ℚ)
    (hp : p a = true) : (List.replicate m a).filter p = List.replicate m a := by
  induction m with
  | zero => rfl
  | succ k ih => simp [List.replicate, hp, ih]

/-- Shared form of the HRV outlier filtering: the outlier filter commutes
with the whole computation, so every statistic is taken on the filtered
intervals only. -/
theorem compute_hrv_features_filter (ibi : List ℚ) :
    compute_hrv_features ibi = compute_hrv_features (ibi.filter validIbi) := by
  by_cases h1 : ibi.length < 2
  · have h2 : (ibi.filter validIbi).length < 2 :=
      lt_of_le_of_lt (List.length_filter_le _ _) h1
    simp [compute_hrv_features, h1, h2]
  · by_cases h2 : (ibi.filter validIbi).length < 2
    · simp [compute_hrv_features, h1, h2]
    · have hff : (ibi.filter validIbi).filter validIbi = ibi.filter validIbi :=
        List.filter_eq_self.mpr (fun a ha => (List.mem_filter.1 ha).2)
      simp [compute_hrv_features, h1, h2, hff]

/-! ## Claim theorems: HRV (C2) -/

/-- Claim C2: HRV features are computed only when more than two pulse peaks
are detected; every interval ≤ 300 ms or ≥ 2000 ms is removed before any
HRV statistic; fewer than two surviving intervals leave the feature vector
with no hrv_ keys at all; and when all surviving intervals are exactly
800 ms, hrv_sdnn and hrv_rmssd are exactly 0 (√0). -/
theorem hrv_filter_and_guards :
    (∀ (bvp hr : List (Option ℚ)) (hrPresent : Bool) (fs : ℚ)
       (detected : Option (List ℕ)),
      (∀ peaks, detected = some peaks → peaks.length ≤ 2) →
      ∀ k ∈ hrvKeys,
        k ∉ (extract_ppg_features bvp hr hrPresent fs detected).map Prod.fst) ∧
    (∀ ibi : List ℚ,
      compute_hrv_features ibi = compute_hrv_features (ibi.filter validIbi)) ∧
    (∀ ibi : List ℚ, (ibi.filter validIbi).length < 2 →
      compute_hrv_features ibi = []) ∧
    (∀ (ibi : List ℚ) (m : ℕ), 2 ≤ m →
      ibi.filter validIbi = List.replicate m 800 →
      (compute_hrv_features ibi).lookup "hrv_sdnn" = some (sqrtv 0) ∧
      (compute_hrv_features ibi).lookup "hrv_rmssd" = some (sqrtv 0) ∧
      FVal.denotes (sqrtv 0) 0) := by
  refine ⟨?_, compute_hrv_features_filter, ?_, ?_⟩
  · intro bvp hr hrPresent fs detected hspec k hk hmem
    rw [ppg_keys] at hmem
    have hC : hrvOk detected fs = false := by
      cases detected with
      | none => rfl
      | some peaks =>
        have hlen := hspec peaks rfl
        simp [hrvOk, show ¬ 2 < peaks.length from not_lt.mpr hlen]
    rw [hC] at hmem
    have hA : k ∉ statKeys "ppg" ∧ k ∉ hrKeys := by
      fin_cases hk <;> exact ⟨by decide, by decide⟩
    simp only [Bool.false_eq_true, if_false, List.append_nil] at hmem
    rcases List.mem_append.1 hmem with h1 | h2
    · split at h1
      · exact hA.1 h1
      · cases h1
    · split at h2
      · exact hA.2 h2
      · cases h2
  · intro ibi h2
    by_cases h1 : ibi.length < 2
    · simp [compute_hrv_features, h1]
    · simp [compute_hrv_features, h1, h2]
  · intro ibi m hm hf
    have hmpos : 0 < m := by omega
    rw [compute_hrv_features_filter, hf]
    have hfr : (List.replicate m (800:ℚ)).filter validIbi = List.replicate m 800 :=
      filter_replicate_of_pos validIbi m 800 (by decide)
    simp only [compute_hrv_features, List.length_replicate, hfr]
    rw [if_neg (by omega), if_neg (by omega)]
    rw [centralMoment_replicate m 800 2 hmpos (by norm_num)]
    rw [diffQ_replicate]
    rw [meanSqQ_replicate (m - 1) 0 (by omega)]
    rw [show ((0:ℚ) ^ 2) = 0 by norm_num]
    refine ⟨?_, ?_, ?_⟩
    · simp [List.lookup]
    · simp [List.lookup]
    · simp [FVal.denotes, sqrtv, Real.sqrt_zero]

/-- Claim C2 witness: the interval list [800, 800, 800] survives the filter
unchanged and yields SDNN = RMSSD = √0. -/
theorem hrv_filter_and_guards_witness :
    (compute_hrv_features [800, 800, 800]).lookup "hrv_sdnn" = some (sqrtv 0) ∧
    (compute_hrv_features [800, 800, 800]).lookup "hrv_rmssd" = some (sqrtv 0) ∧
    FVal.denotes (sqrtv 0) 0 :=
  hrv_filter_and_guards.2.2.2 [800, 800, 800] 3 (by norm_num) (by decide)

/-! ## Claim theorems: constant signals (C8) -/

/-- Claim C8: skewness and kurtosis default to 0 whenever the (NaN-filtered)
signal has zero variance, for every channel prefix; and on a constant
accelerometer-magnitude epoch the extracted features have
imu_mag_std = √0, imu_mag_skew = 0, imu_mag_kurtosis = 0 and
imu_activity_count = 0 (the denoted real value of √0 being 0). -/
theorem constant_magnitude_features :
    (∀ (sig : List (Option ℚ)) (pfx : String),
      ¬ (sig.filterMap id).isEmpty = true →
      centralMoment (sig.filterMap id) 2 = 0 →
      (compute_statistical_features sig pfx).lookup (pfx ++ "_skew") = some (ratv 0) ∧
      (compute_statistical_features sig pfx).lookup (pfx ++ "_kurtosis") = some (ratv 0)) ∧
    (∀ (x y z : List (Option ℚ)) (n : ℕ) (c : ℚ), 0 < n →
      (extract_imu_features true true true x y z (List.replicate n (some c))).lookup
          "imu_mag_std" = some (sqrtv 0) ∧
      (extract_imu_features true true true x y z (List.replicate n (some c))).lookup
          "imu_mag_skew" = some (ratv 0) ∧
      (extract_imu_features true true true x y z (List.replicate n (some c))).lookup
          "imu_mag_kurtosis" = some (ratv 0) ∧
      (extract_imu_features true true true x y z (List.replicate n (some c))).lookup
          "imu_activity_count" = some (ratv 0)) ∧
    FVal.denotes (sqrtv 0) 0 ∧ FVal.denotes (ratv 0) 0 := by
  refine ⟨?_, ?_, ?_, ?_⟩
  · intro sig pfx h1 h2
    constructor
    · simp only [compute_statistical_features, if_neg h1]
      simp [List.lookup, append_beq, h2]
    · simp only [compute_statistical_features, if_neg h1]
      simp [List.lookup, append_beq, h2]
  · intro x y z n c hn
    have hfeats : extract_imu_features true true true x y z (List.replicate n (some c)) =
        compute_statistical_features x "imu_x" ++ compute_statistical_features y "imu_y"
        ++ compute_statistical_features z "imu_z"
        ++ (compute_statistical_features (List.replicate n (some c)) "imu_mag"
            ++ [("imu_activity_count",
                  nanSum ((optDiff (List.replicate n (some c))).map (Option.map abs))),
                ("imu_movement_intensity", nanStd (List.replicate n (some c)))]) := by
      simp [extract_imu_features]
    have hact : nanSum ((optDiff (List.replicate n (some c))).map (Option.map abs)) =
        ratv 0 := by
      rw [optDiff_replicate, List.map_replicate]
      simp only [Option.map_some', abs_zero]
      unfold nanSum
      rw [if_pos (by simp [List.all_eq_true])]
      rw [filterMap_id_replicate_some, sum_replicate_zero]
    rw [hfeats, statFeatures_replicate n c "imu_mag" hn, hact]
    refine ⟨?_, ?_, ?_, ?_⟩ <;>
      (rw [lookup_imu_tail _ _ _ _ _ (by decide) (by decide) (by decide)]; simp [List.lookup])
  · simp [FVal.denotes, sqrtv, Real.sqrt_zero]
  · simp [FVal.denotes, ratv]

/-- Claim C8 witness: a 3-sample constant unit magnitude (for example from
constant acceleration (1, 0, 0) g). -/
theorem constant_magnitude_features_witness :
    (extract_imu_features true true true (List.replicate 3 (some 1))
        (List.replicate 3 (some 0)) (List.replicate 3 (some 0))
        (List.replicate 3 (some 1))).lookup "imu_mag_std" = some (sqrtv 0) := by
  have h := (constant_magnitude_features.2.1 (List.replicate 3 (some 1))
    (List.replicate 3 (some 0)) (List.replicate 3 (some 0)) 3 1 (by norm_num)).1
  exact h

/-! ## Claim theorems: zero crossings (C10) -/

/-- Claim C10: the zero-crossings feature counts, over the NaN-filtered
slice, adjacent pairs whose mean-centered values differ in sign bit; a
value equal to the mean has sign bit false (non-negative); a constant
sequence has count 0; and a sequence touching the mean from above without
crossing gains no count from the touch ([2, 1, 2, -1] has mean 1 and
exactly one crossing). -/
theorem zero_crossings_semantics :
    (∀ (sig : List (Option ℚ)) (pfx : String),
      ¬ (sig.filterMap id).isEmpty = true →
      (compute_statistical_features sig pfx).lookup (pfx ++ "_zero_crossings") =
        some (ratv (zeroCrossings (sig.filterMap id)))) ∧
    (∀ s : List ℚ, zeroCrossings s =
      (s.zip s.tail).countP
        (fun p => signbitQ (p.1 - meanQ s) != signbitQ (p.2 - meanQ s))) ∧
    (∀ q : ℚ, signbitQ q = false ↔ 0 ≤ q) ∧
    (∀ (n : ℕ) (c : ℚ), zeroCrossings (List.replicate n c) = 0) ∧
    zeroCrossings [2, 1, 2, -1] = 1 := by
  refine ⟨?_, fun s => rfl, ?_, zeroCrossings_replicate, ?_⟩
  · intro sig pfx h1
    simp only [compute_statistical_features, if_neg h1]
    simp [List.lookup, append_beq]
  · intro q
    simp [signbitQ, not_lt]
  · have hm : meanQ [2, 1, 2, -1] = 1 := by norm_num [meanQ]
    simp only [zeroCrossings, hm]
    norm_num [List.countP_cons, signbitQ]

/-! ## Mode (majority vote) machinery -/

theorem strMin_le_left (a b : String) :
    strLt (strMin a b) a = true ∨ strMin a b = a := by
  unfold strMin
  by_cases hb : strLt b a = true
  · rw [if_pos hb]
    left
    exact hb
  · rw [if_neg hb]
    right
    rfl

theorem strMin_le_right (a b : String) :
    strLt (strMin a b) b = true ∨ strMin a b = b := by
  have hcases : strLt b a = true ∨ strLt b a = false := by
    cases strLt b a
    · right; rfl
    · left; rfl
  unfold strMin
  rcases hcases with hb | hb
  · rw [if_pos hb]
    right
    rfl
  · rw [hb]
    simp only [Bool.false_eq_true, if_false]
    rcases strLt_connex hb with h1 | h1
    · left
      exact h1
    · right
      exact h1.symm

theorem foldl_strMin_le (xs : List String) :
    ∀ x y, (y = x ∨ y ∈ xs) →
      strLt (xs.foldl strMin x) y = true ∨ xs.foldl strMin x = y := by
  induction xs with
  | nil =>
    intro x y hy
    rcases hy with rfl | h
    · right; rfl
    · cases h
  | cons b bs ih =>
    intro x y hy
    simp only [List.foldl_cons]
    have hacc : strLt (bs.foldl strMin (strMin x b)) (strMin x b) = true ∨
        bs.foldl strMin (strMin x b) = strMin x b := ih (strMin x b) _ (Or.inl rfl)
    have chain : ∀ t : String,
        (strLt (strMin x b) t = true ∨ strMin x b = t) →
        strLt (bs.foldl strMin (strMin x b)) t = true ∨
          bs.foldl strMin (strMin x b) = t := by
      intro t ht
      rcases hacc with h1 | h1
      · rcases ht with h2 | h2
        · left; exact strLt_trans h1 h2
        · left; rw [← h2]; exact h1
      · rw [h1]; exact ht
    rcases hy with rfl | hy
    · exact chain y (strMin_le_left y b)
    · rcases List.mem_cons.1 hy with rfl | hmem
      · exact chain y (strMin_le_right x y)
      · exact ih (strMin x b) y (Or.inr hmem)

theorem foldl_strMin_mem (xs : List String) :
    ∀ x, xs.foldl strMin x = x ∨ xs.foldl strMin x ∈ xs := by
  induction xs with
  | nil =>
    intro x
    left
    rfl
  | cons b bs ih =>
    intro x
    simp only [List.foldl_cons]
    rcases ih (strMin x b) with h | h
    · rw [h]
      unfold strMin
      by_cases hb : strLt b x = true
      · rw [if_pos hb]
        right
        exact List.mem_cons_self b bs
      · rw [if_neg hb]
        left
        rfl
    · right
      exact List.mem_cons_of_mem b h

theorem exists_max_image (f : String → ℕ) :
    ∀ l : List String, l ≠ [] → ∃ a ∈ l, ∀ b ∈ l, f b ≤ f a := by
  intro l
  induction l with
  | nil => intro h; cases h rfl
  | cons x xs ih =>
    intro _
    cases xs with
    | nil =>
      refine ⟨x, List.mem_cons_self _ _, ?_⟩
      intro b hb
      rcases List.mem_cons.1 hb with rfl | hb
      · exact le_refl _
      · cases hb
    | cons y ys =>
      obtain ⟨a, ha, hA⟩ := ih (by simp)
      by_cases hxa : f x ≤ f a
      · refine ⟨a, List.mem_cons_of_mem _ ha, ?_⟩
        intro b hb
        rcases List.mem_cons.1 hb with rfl | hb
        · exact hxa
        · exact hA b hb
      · refine ⟨x, List.mem_cons_self _ _, ?_⟩
        intro b hb
        rcases List.mem_cons.1 hb with rfl | hb
        · exact le_refl _
        · exact le_trans (hA b hb) (by omega)

theorem modeCandidates_ne_nil (l : List String) (h : l ≠ []) :
    modeCandidates l ≠ [] := by
  obtain ⟨a, ha, hA⟩ := exists_max_image l.count l h
  have hmem : a ∈ modeCandidates l := by
    unfold modeCandidates
    rw [List.mem_filter]
    exact ⟨ha, List.all_eq_true.mpr (fun b hb => decide_eq_true (hA b hb))⟩
  intro hnil
  rw [hnil] at hmem
  cases hmem

theorem modeCandidates_count {l : List String} {a : String}
    (ha : a ∈ modeCandidates l) : a ∈ l ∧ ∀ b ∈ l, l.count b ≤ l.count a := by
  unfold modeCandidates at ha
  rw [List.mem_filter] at ha
  refine ⟨ha.1, ?_⟩
  intro b hb
  exact of_decide_eq_true (List.all_eq_true.1 ha.2 b hb)

theorem pdModeFirst_spec (l : List String) (h : l ≠ []) :
    pdModeFirst l ∈ modeCandidates l ∧
    ∀ a ∈ modeCandidates l,
      strLt (pdModeFirst l) a = true ∨ pdModeFirst l = a := by
  have hne := modeCandidates_ne_nil l h
  unfold pdModeFirst
  cases hc : modeCandidates l with
  | nil => exact absurd hc hne
  | cons x xs =>
    constructor
    · show xs.foldl strMin x ∈ x :: xs
      rcases foldl_strMin_mem xs x with h1 | h1
      · rw [h1]
        exact List.mem_cons_self _ _
      · exact List.mem_cons_of_mem _ h1
    · intro a ha
      show strLt (xs.foldl strMin x) a = true ∨ xs.foldl strMin x = a
      rcases List.mem_cons.1 ha with h1 | hmem
      · exact foldl_strMin_le xs x a (Or.inl h1)
      · exact foldl_strMin_le xs x a (Or.inr hmem)

/-! ## Epoch windowing (C3) -/

theorem pyStarts_length (n E S : ℕ) (hS : 1 ≤ S) :
    (pyStarts n E S).length = if E ≤ n then (n - E) / S + 1 else 0 := by
  unfold pyStarts
  rw [List.length_map, List.length_range]
  by_cases h : E ≤ n
  · rw [if_pos h]
    rw [show n + 1 - E + (S - 1) = (n - E) + S by omega]
    rw [Nat.add_div_right _ (by omega)]
  · rw [if_neg h]
    rw [show n + 1 - E + (S - 1) = S - 1 by omega]
    exact Nat.div_eq_of_lt (by omega)

theorem pyStarts_mem (n E S : ℕ) (hS : 1 ≤ S) (start : ℕ)
    (hmem : start ∈ pyStarts n E S) : (∃ i, start = i * S) ∧ start + E ≤ n := by
  unfold pyStarts at hmem
  rcases List.mem_map.1 hmem with ⟨i, hi, rfl⟩
  have hiLt := List.mem_range.1 hi
  refine ⟨⟨i, rfl⟩, ?_⟩
  by_cases h : E ≤ n
  · rw [show n + 1 - E + (S - 1) = (n - E) + S by omega] at hiLt
    rw [Nat.add_div_right _ (by omega)] at hiLt
    have h2 : i ≤ (n - E) / S := by omega
    have h3 : i * S ≤ (n - E) / S * S := Nat.mul_le_mul_right S h2
    have h4 : (n - E) / S * S ≤ n - E := Nat.div_mul_le_self _ _
    omega
  · exfalso
    rw [show n + 1 - E + (S - 1) = S - 1 by omega] at hiLt
    rw [Nat.div_eq_of_lt (by omega)] at hiLt
    omega

/-- Claim C3: for an n-row table the extractor produces exactly
⌊(n-E)/S⌋ + 1 epochs when n ≥ E and none otherwise; every epoch starts at
a multiple of S and its E rows lie entirely inside the table, and each
slice taken from a full-length column has exactly E rows (the trailing
partial window is dropped, never padded). -/
theorem epoch_windowing (tbl : Table) (include_imu include_ppg : Bool)
    (E S : ℕ) (fs : ℚ) (magAt : ℕ → List (Option ℚ))
    (peaksAt : ℕ → Option (List ℕ)) (hS : 1 ≤ S) :
    ((extract_all_features tbl include_imu include_ppg E S fs magAt peaksAt).length =
      if E ≤ tbl.nRows then (tbl.nRows - E) / S + 1 else 0) ∧
    (∀ start ∈ pyStarts tbl.nRows E S,
      (∃ i, start = i * S) ∧ start + E ≤ tbl.nRows) ∧
    (∀ c : List (Option ℚ), c.length = tbl.nRows →
      ∀ start ∈ pyStarts tbl.nRows E S, (sliceE c start E).length = E) := by
  refine ⟨?_, fun start h => pyStarts_mem tbl.nRows E S hS start h, ?_⟩
  · rw [extract_all_features, List.length_map, pyStarts_length tbl.nRows E S hS]
  · intro c hc start hmem
    have h2 := (pyStarts_mem tbl.nRows E S hS start hmem).2
    unfold sliceE
    rw [List.length_take, List.length_drop, hc]
    omega

/-- Claim C3 witness: a 5-row table with 2-sample epochs and stride 2
yields ⌊(5-2)/2⌋ + 1 = 2 epochs. -/
theorem epoch_windowing_witness :
    (extract_all_features ⟨none, none, none, none, none, none, 5⟩ true true
        2 2 64 (fun _ => []) (fun _ => none)).length =
      if 2 ≤ (⟨none, none, none, none, none, none, 5⟩ : Table).nRows
      then ((⟨none, none, none, none, none, none, 5⟩ : Table).nRows - 2) / 2 + 1
      else 0 :=
  (epoch_windowing ⟨none, none, none, none, none, none, 5⟩ true true 2 2 64
    (fun _ => []) (fun _ => none) (by norm_num)).1

/-! ## Majority-vote label (C4) -/

/-- Claim C4 counterexample: on the tied epoch [W, N1, W, N1] the pipeline
assigns N1 (the smaller label in sorted order), while the first-occurrence
tie-break required by the claim yields W. -/
theorem mode_tie_sorted_not_first :
    extract_all_features ⟨none, none, none, none, none,
        some ["W", "N1", "W", "N1"], 4⟩ true true 4 4 64
        (fun _ => []) (fun _ => none) = [[("Sleep_Stage", FVal.str "N1")]] ∧
    firstOccurrenceMode ["W", "N1", "W", "N1"] = "W" ∧
    ("N1" : String) ≠ "W" := by
  refine ⟨?_, by decide, by decide⟩
  decide

/-- Claim C4 (amended): the epoch label is a most frequent label of the
epoch's rows; ties are broken by sorted order — the smallest tied label in
Python string order wins (pandas Series.mode sorts its result and iloc[0]
takes the first), not by first occurrence.  [W, W, N1, W] still yields W
(strict majority). -/
theorem epoch_label_majority :
    (∀ l : List String, l ≠ [] →
      pdModeFirst l ∈ l ∧
      (∀ a ∈ l, l.count a ≤ l.count (pdModeFirst l)) ∧
      (∀ a ∈ l, l.count a = l.count (pdModeFirst l) →
        strLt a (pdModeFirst l) = false)) ∧
    extract_all_features ⟨none, none, none, none, none,
        some ["W", "W", "N1", "W"], 4⟩ true true 4 4 64
        (fun _ => []) (fun _ => none) = [[("Sleep_Stage", FVal.str "W")]] := by
  constructor
  · intro l hl
    obtain ⟨hmem, hmin⟩ := pdModeFirst_spec l hl
    obtain ⟨hml, hcount⟩ := modeCandidates_count hmem
    refine ⟨hml, hcount, ?_⟩
    intro a ha htie
    have haC : a ∈ modeCandidates l := by
      unfold modeCandidates
      rw [List.mem_filter]
      refine ⟨ha, List.all_eq_true.mpr (fun b hb => decide_eq_true ?_)⟩
      rw [htie]
      exact hcount b hb
    rcases hmin a haC with h1 | h1
    · exact strLt_asymm h1
    · rw [← h1]
      exact strLt_irrefl _
  · decide

/-- Claim C4 witness: the majority property instantiated on the epoch
[W, W, N1, W]. -/
theorem epoch_label_majority_witness :
    pdModeFirst ["W", "W", "N1", "W"] ∈ ["W", "W", "N1", "W"] :=
  ((epoch_label_majority.1 ["W", "W", "N1", "W"] (by decide)).1)

/-! ## Feature-name characterization (C1, C9) -/

/-- The feature names of one epoch as a function of the configuration,
the declared channel set, and the data-dependent emission conditions. -/
def epochKeySpec (imuOn xNE yNE zNE magNE ppgOn bvpNE hrOn hrNE hrvE
    labelOn : Bool) : List String :=
  (if imuOn then
     (if xNE then statKeys "imu_x" else [])
     ++ (if yNE then statKeys "imu_y" else [])
     ++ (if zNE then statKeys "imu_z" else [])
     ++ ((if magNE then statKeys "imu_mag" else [])
         ++ ["imu_activity_count", "imu_movement_intensity"])
   else [])
  ++ (if ppgOn then
        (if bvpNE then statKeys "ppg" else [])
        ++ (if hrOn && hrNE then hrKeys else [])
        ++ (if hrvE then hrvKeys else [])
      else [])
  ++ (if labelOn then ["Sleep_Stage"] else [])

/-- The per-epoch feature names of the full pipeline are exactly
`epochKeySpec` applied to the configuration, channel-presence flags and
the data-dependent conditions. -/
theorem epoch_keys (tbl : Table) (include_imu include_ppg : Bool)
    (E S : ℕ) (fs : ℚ) (magAt : ℕ → List (Option ℚ))
    (peaksAt : ℕ → Option (List ℕ)) :
    (extract_all_features tbl include_imu include_ppg E S fs magAt peaksAt).map
        (fun e => e.map Prod.fst) =
      (pyStarts tbl.nRows E S).map (fun start =>
        epochKeySpec
          (include_imu && (tbl.accX.isSome && tbl.accY.isSome && tbl.accZ.isSome))
          (chanNE (sliceE (colData tbl.accX) start E))
          (chanNE (sliceE (colData tbl.accY) start E))
          (chanNE (sliceE (colData tbl.accZ) start E))
          (chanNE (magAt start))
          (include_ppg && tbl.bvp.isSome)
          (chanNE (sliceE (colData tbl.bvp) start E))
          tbl.hr.isSome
          (chanNE (sliceE (colData tbl.hr) start E))
          (hrvOk (peaksAt start) fs)
          tbl.sleepStage.isSome) := by
  unfold extract_all_features
  rw [List.map_map]
  apply List.map_congr_left
  intro start _
  simp only [Function.comp]
  rw [List.map_append, List.map_append]
  unfold epochKeySpec
  congr 1
  congr 1
  · by_cases hcond :
        (include_imu && (tbl.accX.isSome && tbl.accY.isSome && tbl.accZ.isSome)) = true
    · rw [if_pos ?_, if_pos hcond]
      · exact imu_keys _ _ _ _
      · revert hcond
        cases include_imu <;> cases tbl.accX.isSome <;> cases tbl.accY.isSome <;>
          cases tbl.accZ.isSome <;> simp
    · rw [if_neg ?_, if_neg hcond]
      · simp
      · revert hcond
        cases include_imu <;> cases tbl.accX.isSome <;> cases tbl.accY.isSome <;>
          cases tbl.accZ.isSome <;> simp
  · by_cases hcond : (include_ppg && tbl.bvp.isSome) = true
    · rw [if_pos ?_, if_pos hcond]
      · exact ppg_keys _ _ _ _ _
      · revert hcond
        cases include_ppg <;> cases tbl.bvp.isSome <;> simp
    · rw [if_neg ?_, if_neg hcond]
      · simp
      · revert hcond
        cases include_ppg <;> cases tbl.bvp.isSome <;> simp
  · cases hss : tbl.sleepStage with
    | none => simp
    | some ls => simp

/-- Claim C1 counterexample: two tables with the same configuration and the
same channel columns (BVP and HR both present) but different data — in one
the HR column is all-NaN — produce different feature-name sequences, so
feature names do depend on signal values. -/
theorem feature_names_depend_on_data :
    ((⟨none, none, none, some [some 1, some 2], some [some 60, some 61],
        none, 2⟩ : Table).bvp.isSome =
      (⟨none, none, none, some [some 1, some 2], some [none, none],
        none, 2⟩ : Table).bvp.isSome) ∧
    ((⟨none, none, none, some [some 1, some 2], some [some 60, some 61],
        none, 2⟩ : Table).hr.isSome =
      (⟨none, none, none, some [some 1, some 2], some [none, none],
        none, 2⟩ : Table).hr.isSome) ∧
    (extract_all_features
        ⟨none, none, none, some [some 1, some 2], some [some 60, some 61],
          none, 2⟩ true true 2 2 64 (fun _ => []) (fun _ => some [])).map
        (fun e => e.map Prod.fst) ≠
    (extract_all_features
        ⟨none, none, none, some [some 1, some 2], some [none, none],
          none, 2⟩ true true 2 2 64 (fun _ => []) (fun _ => some [])).map
        (fun e => e.map Prod.fst) := by
  refine ⟨rfl, rfl, ?_⟩
  decide

/-- Claim C1 (amended): feature names are a function of the configuration,
the declared channel set, and the data-dependent emission conditions
(per-channel all-NaN status of the epoch slice, magnitude all-NaN status,
presence of non-NaN HR samples, and the HRV emission test on the detected
peaks): two runs with identical configuration and channel sets whose
conditions coincide epoch-for-epoch produce identical feature-name
sequences. -/
theorem feature_names_from_conditions
    (tblA tblB : Table) (include_imu include_ppg : Bool) (E S : ℕ) (fs : ℚ)
    (magA magB : ℕ → List (Option ℚ)) (pkA pkB : ℕ → Option (List ℕ))
    (hrows : tblA.nRows = tblB.nRows)
    (hax : tblA.accX.isSome = tblB.accX.isSome)
    (hay : tblA.accY.isSome = tblB.accY.isSome)
    (haz : tblA.accZ.isSome = tblB.accZ.isSome)
    (hbv : tblA.bvp.isSome = tblB.bvp.isSome)
    (hhr : tblA.hr.isSome = tblB.hr.isSome)
    (hlab : tblA.sleepStage.isSome = tblB.sleepStage.isSome)
    (hcond : ∀ start ∈ pyStarts tblA.nRows E S,
      chanNE (sliceE (colData tblA.accX) start E) =
        chanNE (sliceE (colData tblB.accX) start E) ∧
      chanNE (sliceE (colData tblA.accY) start E) =
        chanNE (sliceE (colData tblB.accY) start E) ∧
      chanNE (sliceE (colData tblA.accZ) start E) =
        chanNE (sliceE (colData tblB.accZ) start E) ∧
      chanNE (magA start) = chanNE (magB start) ∧
      chanNE (sliceE (colData tblA.bvp) start E) =
        chanNE (sliceE (colData tblB.bvp) start E) ∧
      chanNE (sliceE (colData tblA.hr) start E) =
        chanNE (sliceE (colData tblB.hr) start E) ∧
      hrvOk (pkA start) fs = hrvOk (pkB start) fs) :
    (extract_all_features tblA include_imu include_ppg E S fs magA pkA).map
        (fun e => e.map Prod.fst) =
    (extract_all_features tblB include_imu include_ppg E S fs magB pkB).map
        (fun e => e.map Prod.fst) := by
  rw [epoch_keys, epoch_keys, ← hrows]
  apply List.map_congr_left
  intro start hstart
  obtain ⟨h1, h2, h3, h4, h5, h6, h7⟩ := hcond start hstart
  rw [h1, h2, h3, h4, h5, h6, h7, hax, hay, haz, hbv, hhr, hlab]

/-- Claim C1 witness: two single-epoch tables with different BVP values but
agreeing emission conditions produce identical feature names. -/
theorem feature_names_from_conditions_witness :
    (extract_all_features ⟨none, none, none, some [some 1], none, none, 1⟩
        true true 1 1 64 (fun _ => []) (fun _ => none)).map
        (fun e => e.map Prod.fst) =
    (extract_all_features ⟨none, none, none, some [some 2], none, none, 1⟩
        true true 1 1 64 (fun _ => []) (fun _ => none)).map
        (fun e => e.map Prod.fst) :=
  feature_names_from_conditions
    ⟨none, none, none, some [some 1], none, none, 1⟩
    ⟨none, none, none, some [some 2], none, none, 1⟩
    true true 1 1 64 (fun _ => []) (fun _ => []) (fun _ => none) (fun _ => none)
    rfl rfl rfl rfl rfl rfl rfl (by decide)

/-! ## No spectral features from the pipeline (C9) -/

/-- Every feature name the pipeline can emit. -/
def allFeatureKeys : List String :=
  statKeys "imu_x" ++ statKeys "imu_y" ++ statKeys "imu_z" ++ statKeys "imu_mag"
  ++ ["imu_activity_count", "imu_movement_intensity"]
  ++ statKeys "ppg" ++ hrKeys ++ hrvKeys ++ ["Sleep_Stage"]

theorem mem_ite_nil {α : Type} {a : α} {b : Bool} {L : List α}
    (h : a ∈ (if b then L else [])) : a ∈ L := by
  cases b
  · simp at h
  · simpa using h

theorem epochKeySpec_subset (b1 b2 b3 b4 b5 b6 b7 b8 b9 b10 b11 : Bool) :
    ∀ k ∈ epochKeySpec b1 b2 b3 b4 b5 b6 b7 b8 b9 b10 b11,
      k ∈ allFeatureKeys := by
  intro k hk
  unfold epochKeySpec at hk
  rcases List.mem_append.1 hk with h12 | hlab
  · rcases List.mem_append.1 h12 with himu | hppg
    · have h := mem_ite_nil himu
      rcases List.mem_append.1 h with h' | hmag
      · rcases List.mem_append.1 h' with h'' | hz
        · rcases List.mem_append.1 h'' with hx | hy
          · have := mem_ite_nil hx
            simp only [allFeatureKeys, List.mem_append]
            tauto
          · have := mem_ite_nil hy
            simp only [allFeatureKeys, List.mem_append]
            tauto
        · have := mem_ite_nil hz
          simp only [allFeatureKeys, List.mem_append]
          tauto
      · rcases List.mem_append.1 hmag with hm | hrest
        · have := mem_ite_nil hm
          simp only [allFeatureKeys, List.mem_append]
          tauto
        · simp only [allFeatureKeys, List.mem_append]
          tauto
    · have h := mem_ite_nil hppg
      rcases List.mem_append.1 h with h' | hv
      · rcases List.mem_append.1 h' with hb | hh
        · have := mem_ite_nil hb
          simp only [allFeatureKeys, List.mem_append]
          tauto
        · have := mem_ite_nil hh
          simp only [allFeatureKeys, List.mem_append]
          tauto
      · have := mem_ite_nil hv
        simp only [allFeatureKeys, List.mem_append]
        tauto
  · have := mem_ite_nil hlab
    simp only [allFeatureKeys, List.mem_append]
    tauto

theorem allFeatureKeys_spectral_free :
    ∀ k ∈ allFeatureKeys, ∀ s ∈ spectralSuffixes, ¬ (s.data <:+ k.data) := by
  decide

theorem no_append_of_not_suffix {k s : String} (h : ¬ (s.data <:+ k.data)) :
    ∀ p : String, p ++ s ≠ k := by
  intro p he
  apply h
  refine ⟨p.data, ?_⟩
  rw [← String.data_append, he]

/-- Claim C9: the feature vectors produced by extract_all_features never
contain a spectral feature name — no key it emits coincides, for any
prefix, with a key written by extract_frequency_features, which is a
separate method the pipeline never invokes. -/
theorem no_spectral_features (tbl : Table) (include_imu include_ppg : Bool)
    (E S : ℕ) (fs : ℚ) (magAt : ℕ → List (Option ℚ))
    (peaksAt : ℕ → Option (List ℕ)) :
    ∀ epoch ∈ extract_all_features tbl include_imu include_ppg E S fs magAt peaksAt,
      ∀ kv ∈ epoch, ∀ pfx : String,
        kv.1 ∉ extract_frequency_features_keys pfx := by
  intro epoch hep kv hkv pfx hmem
  unfold extract_frequency_features_keys at hmem
  rcases List.mem_map.1 hmem with ⟨sfx, hs, hkey⟩
  have hkeys : kv.1 ∈ epoch.map Prod.fst := List.mem_map_of_mem _ hkv
  have hepk : epoch.map Prod.fst ∈
      (extract_all_features tbl include_imu include_ppg E S fs magAt peaksAt).map
        (fun e => e.map Prod.fst) := List.mem_map_of_mem _ hep
  rw [epoch_keys] at hepk
  rcases List.mem_map.1 hepk with ⟨start, _, hkeq⟩
  rw [← hkeq] at hkeys
  have hall : kv.1 ∈ allFeatureKeys :=
    epochKeySpec_subset _ _ _ _ _ _ _ _ _ _ _ kv.1 hkeys
  exact no_append_of_not_suffix (allFeatureKeys_spectral_free kv.1 hall sfx hs)
    pfx hkey

/-- Claim C9 witness: the label key of a concrete one-epoch run is not a
spectral key for the prefix ppg. -/
theorem no_spectral_features_witness :
    ("Sleep_Stage" : String) ∉ extract_frequency_features_keys "ppg" := by
  have h := no_spectral_features ⟨none, none, none, none, none, some ["W"], 1⟩
    true true 1 1 64 (fun _ => []) (fun _ => none)
  exact h [("Sleep_Stage", FVal.str "W")] (by decide)
    ("Sleep_Stage", FVal.str "W") (by decide) "ppg"

/-- Claim C10 witness: the zero-crossings feature of the concrete slice
[2, 1, 2, -1]. -/
theorem zero_crossings_semantics_witness :
    (compute_statistical_features [some 2, some 1, some 2, some (-1)]
        "ppg").lookup ("ppg" ++ "_zero_crossings") =
      some (ratv (zeroCrossings
        (([some 2, some 1, some 2, some (-1)] : List (Option ℚ)).filterMap id))) :=
  zero_crossings_semantics.1 [some 2, some 1, some 2, some (-1)] "ppg" (by decide)

end Dreamt
